import Mathlib

/-!
Verification development for the `event-emitter` repository
(`src/index.ts`, `src/Listener.ts`).

The embedding models the `EventEmitter` class as a state machine over an
explicit registry state.  Event names are strings (symbol keys are outside
the model).  User callbacks are opaque and are identified by a natural
number (`FnId`); invoking a callback is recorded as an event in an
observation trace rather than executed, which matches the source where
listeners are arbitrary `Function` values supplied by callers.  A
`Listener` wrapper (`src/Listener.ts`) stores the original callback in its
`listener` field; a registration is therefore the tagged variant
`Reg.plain f` (a bare callback) or `Reg.once f` (a `Listener` wrapper
around `f`).

Two behavioural points of the source are modelled explicitly:

* `emit` invokes each registration with `listener.apply(this, values)`.
  A bare function has `Function.prototype.apply`, but the `Listener` class
  defines only a `call` method and does not extend `Function`, so a
  `Listener` instance has no `apply` property: when the walk reaches a
  once-wrapper it first splices it out via `_removeListener` (firing the
  `removeListener` notification) and then throws
  `TypeError: listener.apply is not a function` — the wrapped callback is
  never invoked and no later entry is visited.  The dispatch functions
  therefore return `Except Crash …`, where the `Crash` value carries the
  state and the observable steps performed before the throw.

* `eventNames()` is `Object.keys(this.events)`: JS enumerates array-index
  string keys (canonical numerals below 2^32 − 1) first, in ascending
  numeric order, and only then the remaining string keys in
  property-creation order.  `eventNamesF` applies this enumeration order to
  the stored key list.

`emit` re-enters itself through the `removeListener` notification fired by
`_removeListener`, so the dispatch functions take an explicit fuel argument
and return `none` when the fuel is exhausted; theorems about them take the
completed run as a hypothesis and witnesses discharge it on concrete inputs
by computation.
-/

/-- Identity of a user-supplied callback (`Function` values are opaque). -/
abbrev FnId := Nat

/-- A registration stored in an event's sequence: either the bare callback
(`on`/`prependListener`) or a `Listener` wrapper around it
(`once`/`prependOnceListener`), as in `src/Listener.ts`. -/
inductive Reg where
  | plain (f : FnId)
  | once (f : FnId)
deriving DecidableEq, Repr

/-- The underlying callback of a registration: the callback itself for a bare
registration, the wrapper's `listener` field for a once registration. -/
def Reg.fnOf : Reg → FnId
  | .plain f => f
  | .once f => f

/-- Whether a registration is a bare callback (not a `Listener` wrapper);
`emit` tests `listener instanceof Listener` to decide removal. -/
def Reg.isPlain : Reg → Bool
  | .plain _ => true
  | .once _ => false

/-- A JS value as it appears in listener argument lists: an event-name
string, a bare function reference, or a `Listener` wrapper object
(identified by its wrapped callback). -/
inductive Val where
  | str (s : String)
  | fn (f : FnId)
  | wrapper (f : FnId)
deriving DecidableEq, Repr

/-- The JS value a stored registration denotes when passed as an argument:
a bare registration is the function itself, a once registration is the
wrapper object. -/
def regVal : Reg → Val
  | .plain f => .fn f
  | .once f => .wrapper f

/-- An observable step of a run: the invocation of a bare listener during
the dispatch of event `n` (`listener.apply(this, values)`; a `Listener`
wrapper is never invoked, because it has no `apply` method), the splice
removing a registration from `n`'s sequence, or a
`MaxListenersExceededWarning` printed by `console.warn`. -/
inductive Ev where
  | invoke (n : String) (r : Reg) (args : List Val)
  | removed (n : String) (r : Reg)
  | warn
deriving DecidableEq, Repr

/-- The event name whose dispatch or mutation produced this step. -/
def Ev.tag : Ev → Option String
  | .invoke n _ _ => some n
  | .removed n _ => some n
  | .warn => none

/-- A JS `number` as used for listener ceilings: `NaN`, `Infinity`,
`-Infinity`, or a finite value (integral in every scenario exercised by the
repository). -/
inductive JNum where
  | nan
  | inf
  | ninf
  | fin (v : Int)
deriving DecidableEq, Repr

/-- The JS comparison `x > m` for an integer `x` and a number `m`
(`false` against `NaN` and against `Infinity`, `true` against `-Infinity`). -/
def gtJ (x : Int) : JNum → Bool
  | .nan => false
  | .inf => false
  | .ninf => true
  | .fin m => x > m

/-- The argument of `setMaxListeners`: either a number or a value of some
other runtime type (`typeof n !== 'number'`). -/
inductive NumArg where
  | num (x : JNum)
  | notNum
deriving DecidableEq, Repr

/-- The mutable state of an `EventEmitter` instance: the `events` object
(string keys in property-creation order, each holding the ordered sequence
of registrations), the instance-wide `eventsCount` counter, and the
per-instance `maxListeners` override. -/
structure EmitterState where
  events : List (String × List Reg)
  eventsCount : Int
  maxListeners : Option JNum
deriving DecidableEq, Repr

/-- Property lookup on the `events` object (first entry with the key). -/
def lookupE (n : String) : List (String × List Reg) → Option (List Reg)
  | [] => none
  | (m, l) :: rest => if m = n then some l else lookupE n rest

/-- In-place replacement of the sequence stored under an existing key
(splices mutate the stored array, preserving key-creation order). -/
def updE (n : String) (l' : List Reg) : List (String × List Reg) → List (String × List Reg)
  | [] => []
  | (m, l) :: rest => if m = n then (m, l') :: rest else (m, l) :: updE n l' rest

/-- `this.events[eventName] = listeners`: update in place when the key
exists, otherwise create a new property (appended to the creation-order
record; enumeration order is applied separately by `eventNamesF`). -/
def insertE (n : String) (l' : List Reg) (es : List (String × List Reg)) :
    List (String × List Reg) :=
  match lookupE n es with
  | some _ => updE n l' es
  | none => es ++ [(n, l')]

/-- `this.events[eventName] ?? []`. -/
def regsOf (n : String) (st : EmitterState) : List Reg :=
  (lookupE n st.events).getD []

/-- Replace `n`'s sequence in the state (key already present case). -/
def updList (n : String) (l' : List Reg) (st : EmitterState) : EmitterState :=
  { st with events := updE n l' st.events }

/-- The keys of the `events` object in property-creation order. -/
def keysF (st : EmitterState) : List String :=
  st.events.map Prod.fst

/-- Whether a string is a canonical array-index property key (the canonical
numeral of some k with 0 ≤ k < 2^32 − 1): all digits with no leading zero
except `"0"` itself.  JS objects enumerate such keys before every other
string key, in ascending numeric order. -/
def digitsToNat (cs : List Char) : Nat :=
  cs.foldl (fun n c => n * 10 + (c.toNat - 48)) 0

def isArrayIndex (s : String) : Bool :=
  match s.data with
  | [] => false
  | c :: cs =>
    (c :: cs).all (fun d => 48 ≤ d.toNat && d.toNat ≤ 57) &&
    (c != '0' || cs.isEmpty) &&
    digitsToNat (c :: cs) < 4294967295

/-- Numeric value of a key (used only to order array-index keys). -/
def keyVal (s : String) : Nat :=
  digitsToNat s.data

/-- Insert a key into a list sorted by ascending numeric value. -/
def insertAsc (s : String) : List String → List String
  | [] => [s]
  | t :: rest =>
    if keyVal s ≤ keyVal t then s :: t :: rest else t :: insertAsc s rest

/-- Insertion sort by ascending numeric value. -/
def sortAsc : List String → List String
  | [] => []
  | s :: rest => insertAsc s (sortAsc rest)

/-- JS own-property enumeration order for string keys: array-index keys in
ascending numeric order first, then the remaining keys in creation order. -/
def enumOrder (ks : List String) : List String :=
  sortAsc (ks.filter isArrayIndex) ++ ks.filter (fun s => !isArrayIndex s)

/-- `eventNames()`: `Object.keys(this.events)`, in JS enumeration order.
(Symbol keys, which `Object.keys` omits, are outside the model: names are
strings.) -/
def eventNamesF (st : EmitterState) : List String :=
  enumOrder (keysF st)

/-- `listenerCount(eventName)`. -/
def listenerCountF (n : String) (st : EmitterState) : Nat :=
  (regsOf n st).length

/-- `listeners(eventName)`: defensive copy with wrappers unwrapped
(`(listener as Listener).listener ?? listener`). -/
def listenersF (n : String) (st : EmitterState) : List FnId :=
  (regsOf n st).map Reg.fnOf

/-- `rawListeners(eventName)`: defensive copy with wrappers intact. -/
def rawListenersF (n : String) (st : EmitterState) : List Reg :=
  regsOf n st

/-- A propagating `TypeError` (thrown when `emit` applies a `Listener`
wrapper, which has no `apply` method): carries the state and the observable
steps that had already happened when the error was thrown. -/
abbrev Crash := EmitterState × List Ev

deriving instance DecidableEq for Except

mutual

/-- `emit(eventName, ...values)`.  Reads the live sequence, returns `false`
when it is empty, otherwise walks it by position (`loopF`); the walk either
completes (`emit` returns `true`) or throws (`Except.error`).
Fuel-indexed because `_removeListener` re-enters `emit`. -/
def emitF : Nat → String → List Val → EmitterState →
    Option (Except Crash (Bool × EmitterState × List Ev))
  | 0, _, _, _ => none
  | fuel + 1, n, vs, st =>
    let l := regsOf n st
    if l.isEmpty then some (Except.ok (false, st, []))
    else
      match loopF fuel n vs st 0 with
      | none => none
      | some (Except.ok (st', tr)) => some (Except.ok (true, st', tr))
      | some (Except.error c) => some (Except.error c)

/-- The `for (let i = 0; ...)` walk of `emit`.  At index `i`:
a bare function is invoked (`listener.apply(this, values)`) and the walk
continues; a `Listener` wrapper is first removed via
`_removeListener(i, ...)` (with `i -= 1`), and then the
`listener.apply(this, values)` call throws a `TypeError`, because the final
`Listener` class defines only `call` and does not extend `Function`, so the
wrapper has no `apply` property — the wrapped callback is never invoked and
the walk never continues past a wrapper. -/
def loopF : Nat → String → List Val → EmitterState → Nat →
    Option (Except Crash (EmitterState × List Ev))
  | 0, _, _, _, _ => none
  | fuel + 1, n, vs, st, i =>
    let l := regsOf n st
    if h : i < l.length then
      let r := l.get ⟨i, h⟩
      match r with
      | .plain _ =>
        match loopF fuel n vs st (i + 1) with
        | none => none
        | some (Except.ok (st', tr)) => some (Except.ok (st', Ev.invoke n r vs :: tr))
        | some (Except.error (st', tr)) => some (Except.error (st', Ev.invoke n r vs :: tr))
      | .once _ =>
        match removeAtF fuel n i st with
        | none => none
        | some (Except.ok (st1, tr1)) => some (Except.error (st1, tr1))
        | some (Except.error c) => some (Except.error c)
    else some (Except.ok (st, []))

/-- `_removeListener(index, eventName, listeners)`: decrement `eventsCount`,
splice the registration out of the live sequence, then emit a
`removeListener` notification carrying `(eventName, removedRegistration)`;
a throw inside the notification dispatch propagates. -/
def removeAtF : Nat → String → Nat → EmitterState →
    Option (Except Crash (EmitterState × List Ev))
  | 0, _, _, _ => none
  | fuel + 1, n, i, st =>
    let l := regsOf n st
    match l.get? i with
    | none => some (Except.ok (st, []))
    | some r =>
      let st1 : EmitterState :=
        { updList n (l.eraseIdx i) st with eventsCount := st.eventsCount - 1 }
      match emitF fuel "removeListener" [Val.str n, regVal r] st1 with
      | none => none
      | some (Except.ok (_, st2, tr)) => some (Except.ok (st2, Ev.removed n r :: tr))
      | some (Except.error (st2, tr)) => some (Except.error (st2, Ev.removed n r :: tr))

end

/-- The state and trace of a walk or removal outcome, whether it returned
or threw. -/
def lout : Except Crash (EmitterState × List Ev) → EmitterState × List Ev
  | .ok p => p
  | .error c => c

/-- The state and trace of an `emit` outcome, whether it returned or threw. -/
def eout : Except Crash (Bool × EmitterState × List Ev) → EmitterState × List Ev
  | .ok (_, st, tr) => (st, tr)
  | .error c => c

/-- `_on(eventName, listener, prepend, once)`.  The `listener instanceof
Function` guard always passes here because callbacks are function values by
construction (`FnId`).  Emits `newListener` with the original callback
before any mutation (a throw there propagates and nothing is mutated), then
checks the ceiling against the instance-wide `eventsCount`, warns, appends
or prepends the (possibly wrapped) registration, and increments
`eventsCount`.  `dflt` is the process-wide
`EventEmitter.defaultMaxListeners` (initially `10`). -/
def onAux (fuel : Nat) (dflt : JNum) (n : String) (f : FnId) (prepend onceFlag : Bool)
    (st : EmitterState) : Option (Except Crash (EmitterState × List Ev)) :=
  match emitF fuel "newListener" [Val.str n, Val.fn f] st with
  | none => none
  | some (Except.error c) => some (Except.error c)
  | some (Except.ok (_, st1, tr1)) =>
    let newReg := if onceFlag then Reg.once f else Reg.plain f
    let l := regsOf n st1
    let maxL := st1.maxListeners.getD dflt
    let warnTr : List Ev :=
      if (maxL != JNum.fin 0) && (maxL != JNum.inf) && gtJ (st1.eventsCount + 1) maxL then
        [Ev.warn]
      else []
    let st2 : EmitterState :=
      { st1 with
        events := insertE n (if prepend then newReg :: l else l ++ [newReg]) st1.events
        eventsCount := st1.eventsCount + 1 }
    some (Except.ok (st2, tr1 ++ warnTr))

/-- `on(eventName, listener)` / `addListener`. -/
def onF (fuel : Nat) (dflt : JNum) (n : String) (f : FnId) (st : EmitterState) :
    Option (Except Crash (EmitterState × List Ev)) :=
  onAux fuel dflt n f false false st

/-- `once(eventName, listener)`. -/
def onceF (fuel : Nat) (dflt : JNum) (n : String) (f : FnId) (st : EmitterState) :
    Option (Except Crash (EmitterState × List Ev)) :=
  onAux fuel dflt n f false true st

/-- `prependListener(eventName, listener)`. -/
def prependListenerF (fuel : Nat) (dflt : JNum) (n : String) (f : FnId) (st : EmitterState) :
    Option (Except Crash (EmitterState × List Ev)) :=
  onAux fuel dflt n f true false st

/-- `prependOnceListener(eventName, listener)`. -/
def prependOnceListenerF (fuel : Nat) (dflt : JNum) (n : String) (f : FnId)
    (st : EmitterState) : Option (Except Crash (EmitterState × List Ev)) :=
  onAux fuel dflt n f true true st

/-- The scan of `removeListener` locating the first registration whose
identity equals the listener or whose wrapped original equals it
(`listeners[i] === listener || (listeners[i] as Listener).listener ===
listener`, with `break` on the first hit). -/
def findFirstIdx (f : FnId) : List Reg → Option Nat
  | [] => none
  | r :: rest =>
    if r.fnOf = f then some 0
    else (findFirstIdx f rest).map (· + 1)

/-- `removeListener(eventName, listener)` / `off`: no-op when the sequence
is missing, empty, or has no match; otherwise remove the first match via
`_removeListener`, which fires the `removeListener` notification (a throw
inside that dispatch propagates out of `removeListener`). -/
def removeListenerF (fuel : Nat) (n : String) (f : FnId) (st : EmitterState) :
    Option (Except Crash (EmitterState × List Ev)) :=
  let l := regsOf n st
  if l.isEmpty then some (Except.ok (st, []))
  else
    match findFirstIdx f l with
    | none => some (Except.ok (st, []))
    | some i => removeAtF fuel n i st

/-- `removeAllListeners(eventName?)`: with a name, `delete
this.events[eventName]`; without, `this.events = {}`.  Emits nothing
(the empty trace in the result) and cannot throw. -/
def removeAllListenersF (n? : Option String) (st : EmitterState) :
    EmitterState × List Ev :=
  match n? with
  | some n => ({ st with events := st.events.filter (fun p => p.1 != n) }, [])
  | none => ({ st with events := [] }, [])

/-- `getMaxListeners()`: `this.maxListeners ?? EventEmitter.defaultMaxListeners`. -/
def getMaxListenersF (dflt : JNum) (st : EmitterState) : JNum :=
  st.maxListeners.getD dflt

/-- `setMaxListeners(n)`: throws `RangeError` when `typeof n !== 'number' ||
Number.isNaN(n)`, otherwise stores the override. -/
def setMaxListenersF (n : NumArg) (st : EmitterState) : Except Unit EmitterState :=
  match n with
  | .notNum => .error ()
  | .num x => if x = JNum.nan then .error () else .ok { st with maxListeners := some x }

/-- The `once` promise wrapper (`export const once` in `src/index.ts`):
registers a single-fire success listener for `name`, then a plain `reject`
listener on `error`. -/
def onceHelperSetup (fuel : Nat) (dflt : JNum) (name : String) (succ rej : FnId)
    (st : EmitterState) : Option (Except Crash (EmitterState × List Ev)) :=
  match onceF fuel dflt name succ st with
  | none => none
  | some (Except.error c) => some (Except.error c)
  | some (Except.ok (st1, tr1)) =>
    match onF fuel dflt "error" rej st1 with
    | none => none
    | some (Except.error (st2, tr2)) => some (Except.error (st2, tr1 ++ tr2))
    | some (Except.ok (st2, tr2)) => some (Except.ok (st2, tr1 ++ tr2))

/-! ### Basic lemmas about the `events` object -/

lemma lookupE_updE_self (n : String) (l' : List Reg) :
    ∀ es, (lookupE n es).isSome → lookupE n (updE n l' es) = some l' := by
  intro es
  induction es with
  | nil => intro h; simp [lookupE] at h
  | cons p rest ih =>
    obtain ⟨m, l⟩ := p
    by_cases hm : m = n
    · subst hm; intro _; simp [lookupE, updE]
    · intro h
      simp [lookupE, updE, hm] at h ⊢
      exact ih h


lemma lookupE_updE_ne (n m : String) (l' : List Reg) (hm : m ≠ n) :
    ∀ es, lookupE m (updE n l' es) = lookupE m es := by
  intro es
  induction es with
  | nil => simp [updE]
  | cons p rest ih =>
    obtain ⟨k, l⟩ := p
    by_cases hk : k = n
    · have hnm : ¬ n = m := fun h => hm h.symm
      simp [updE, hk, lookupE, hnm]
    · simp [updE, hk, lookupE, ih]

lemma updE_of_lookupE_none (n : String) (l' : List Reg) :
    ∀ es, lookupE n es = none → updE n l' es = es := by
  intro es
  induction es with
  | nil => simp [updE]
  | cons p rest ih =>
    obtain ⟨k, l⟩ := p
    by_cases hk : k = n
    · subst hk; simp [lookupE]
    · simp [lookupE, updE, hk]
      exact ih

lemma map_fst_updE (n : String) (l' : List Reg) :
    ∀ es, (updE n l' es).map Prod.fst = es.map Prod.fst := by
  intro es
  induction es with
  | nil => simp [updE]
  | cons p rest ih =>
    obtain ⟨k, l⟩ := p
    by_cases hk : k = n
    · subst hk; simp [updE]
    · simp [updE, hk, ih]

lemma lookupE_append_single_ne (n m : String) (l' : List Reg) (hm : m ≠ n) :
    ∀ es, lookupE m (es ++ [(n, l')]) = lookupE m es := by
  intro es
  induction es with
  | nil =>
    have : ¬ n = m := fun h => hm h.symm
    simp [lookupE, this]
  | cons p rest ih =>
    obtain ⟨k, l⟩ := p
    by_cases hk : k = m
    · simp [lookupE, hk]
    · simp [lookupE, hk, ih]

lemma lookupE_insertE_self (n : String) (l' : List Reg) (es : List (String × List Reg)) :
    lookupE n (insertE n l' es) = some l' := by
  unfold insertE
  cases h : lookupE n es with
  | none =>
    rw [updE_of_lookupE_none n l' es h]  -- no-op branch does not apply; appended case
    induction es with
    | nil => simp [lookupE]
    | cons p rest ih =>
      obtain ⟨k, l⟩ := p
      by_cases hk : k = n
      · subst hk; simp [lookupE] at h
      · simp [lookupE, hk] at h ⊢
        exact ih h
  | some l => exact lookupE_updE_self n l' es (by simp [h])

lemma lookupE_insertE_ne (n m : String) (l' : List Reg) (es : List (String × List Reg))
    (hm : m ≠ n) : lookupE m (insertE n l' es) = lookupE m es := by
  unfold insertE
  cases h : lookupE n es with
  | none => exact lookupE_append_single_ne n m l' hm es
  | some l => exact lookupE_updE_ne n m l' hm es

lemma map_fst_insertE (n : String) (l' : List Reg) (es : List (String × List Reg)) :
    (insertE n l' es).map Prod.fst =
      if (lookupE n es).isSome then es.map Prod.fst else es.map Prod.fst ++ [n] := by
  unfold insertE
  cases h : lookupE n es with
  | none => simp
  | some l => simp [map_fst_updE]

lemma lookupE_filter_self (n : String) (es : List (String × List Reg)) :
    lookupE n (es.filter (fun p => p.1 != n)) = none := by
  induction es with
  | nil => simp [lookupE]
  | cons p rest ih =>
    obtain ⟨k, l⟩ := p
    by_cases hk : k = n
    · subst hk; simp [List.filter_cons, ih]
    · simp [List.filter_cons, hk, lookupE, ih]

lemma lookupE_filter_ne (n m : String) (es : List (String × List Reg)) (hm : m ≠ n) :
    lookupE m (es.filter (fun p => p.1 != n)) = lookupE m es := by
  induction es with
  | nil => simp [lookupE]
  | cons p rest ih =>
    obtain ⟨k, l⟩ := p
    by_cases hk : k = n
    · have hnm : ¬ n = m := fun h => hm h.symm
      simp [List.filter_cons, hk, lookupE, hnm, ih]
    · simp [List.filter_cons, hk, lookupE, ih]

lemma regsOf_ne_nil_isSome {n : String} {st : EmitterState} (h : regsOf n st ≠ []) :
    (lookupE n st.events).isSome := by
  unfold regsOf at h
  cases hl : lookupE n st.events with
  | none => simp [hl] at h
  | some l => simp

lemma regsOf_updList_self {n : String} {st : EmitterState} (l' : List Reg)
    (h : (lookupE n st.events).isSome) : regsOf n (updList n l' st) = l' := by
  simp [regsOf, updList, lookupE_updE_self n l' st.events h]

lemma regsOf_updList_ne {n m : String} {st : EmitterState} (l' : List Reg) (hm : m ≠ n) :
    regsOf m (updList n l' st) = regsOf m st := by
  simp [regsOf, updList, lookupE_updE_ne n m l' hm]

lemma keysF_updList (n : String) (l' : List Reg) (st : EmitterState) :
    keysF (updList n l' st) = keysF st := by
  simp [keysF, updList, map_fst_updE]

/-! ### List helper lemmas for the positional walk -/

lemma getAt_append_cons (K : List Reg) (r : Reg) (R : List Reg)
    (h : K.length < (K ++ r :: R).length) : (K ++ r :: R).get ⟨K.length, h⟩ = r := by
  induction K with
  | nil => rfl
  | cons a K ih => exact ih (by simp)

lemma eraseIdx_append_cons (K : List Reg) (r : Reg) (R : List Reg) :
    (K ++ r :: R).eraseIdx K.length = K ++ R := by
  induction K with
  | nil => rfl
  | cons a K ih => simpa [List.eraseIdx] using ih

lemma eraseIdx_sublist (l : List Reg) (i : Nat) : (l.eraseIdx i).Sublist l := by
  induction l generalizing i with
  | nil => simp [List.eraseIdx]
  | cons a l ih =>
    cases i with
    | zero => exact List.sublist_cons_self a l
    | succ j => exact List.Sublist.cons₂ a (ih j)

/-! ### JS key-enumeration order -/

lemma mem_insertAsc (a s : String) : ∀ l, a ∈ insertAsc s l ↔ a = s ∨ a ∈ l := by
  intro l
  induction l with
  | nil => simp [insertAsc]
  | cons t rest ih =>
    by_cases hc : keyVal s ≤ keyVal t
    · simp [insertAsc, hc]
    · simp [insertAsc, hc, ih]
      tauto

lemma mem_sortAsc (a : String) : ∀ l, a ∈ sortAsc l ↔ a ∈ l := by
  intro l
  induction l with
  | nil => simp [sortAsc]
  | cons s rest ih => simp [sortAsc, mem_insertAsc, ih]

lemma mem_enumOrder (a : String) (ks : List String) : a ∈ enumOrder ks ↔ a ∈ ks := by
  unfold enumOrder
  rw [List.mem_append, mem_sortAsc]
  constructor
  · intro h
    rcases h with h | h <;> exact List.mem_of_mem_filter h
  · intro h
    by_cases hi : isArrayIndex a
    · exact Or.inl (List.mem_filter.mpr ⟨h, hi⟩)
    · exact Or.inr (List.mem_filter.mpr ⟨h, by simpa using hi⟩)

lemma enumOrder_nonindex {ks : List String} (h : ∀ m ∈ ks, isArrayIndex m = false) :
    enumOrder ks = ks := by
  unfold enumOrder
  have h1 : ks.filter isArrayIndex = [] := by
    rw [List.filter_eq_nil_iff]
    intro a ha
    simp [h a ha]
  have h2 : ks.filter (fun s => !isArrayIndex s) = ks := by
    rw [List.filter_eq_self]
    intro a ha
    simp [h a ha]
  rw [h1, h2, sortAsc]
  rfl

/-! ### Invariants of the dispatch machinery -/

/-- Conclusions of `dispatchInvariants` for one transition, whether it
returned or threw: only the dispatched name's list and `removeListener`'s
list can change, no list ever grows (dispatch only removes), the key set
and creation order are untouched, and every emitted step is tagged with the
dispatched name or `removeListener`. -/
def DispatchInv (n : String) (st st' : EmitterState) (tr : List Ev) : Prop :=
  (∀ m, m ≠ n → m ≠ "removeListener" → regsOf m st' = regsOf m st) ∧
  (∀ m, (regsOf m st').Sublist (regsOf m st)) ∧
  keysF st' = keysF st ∧
  (∀ e ∈ tr, e.tag = some n ∨ e.tag = some "removeListener")

lemma dispatchInv_rfl (n : String) (st : EmitterState) : DispatchInv n st st [] :=
  ⟨fun _ _ _ => rfl, fun _ => List.Sublist.refl _, rfl, by simp⟩

lemma dispatchInvariants : ∀ fuel : Nat,
    (∀ n vs st res, emitF fuel n vs st = some res →
      DispatchInv n st (eout res).1 (eout res).2) ∧
    (∀ n vs st i res, loopF fuel n vs st i = some res →
      DispatchInv n st (lout res).1 (lout res).2) ∧
    (∀ n i st res, removeAtF fuel n i st = some res →
      DispatchInv n st (lout res).1 (lout res).2) := by
  intro fuel
  induction fuel with
  | zero =>
    refine ⟨?_, ?_, ?_⟩
    · intro n vs st res h; exact absurd h (by simp [emitF])
    · intro n vs st i res h; exact absurd h (by simp [loopF])
    · intro n i st res h; exact absurd h (by simp [removeAtF])
  | succ fuel ih =>
    obtain ⟨ihE, ihL, ihR⟩ := ih
    refine ⟨?_, ?_, ?_⟩
    · -- emitF
      intro n vs st res h
      simp only [emitF] at h
      split at h
      · obtain rfl := by simpa using h
        exact dispatchInv_rfl n st
      · split at h
        · exact absurd h (by simp)
        · next st1 tr1 heq =>
          obtain rfl := by simpa using h
          exact ihL n vs st 0 _ heq
        · next c heq =>
          obtain rfl := by simpa using h
          exact ihL n vs st 0 _ heq
    · -- loopF
      intro n vs st i res h
      simp only [loopF] at h
      split at h
      · split at h
        · -- bare registration
          next f hr =>
          split at h
          · exact absurd h (by simp)
          · next stA trA heq =>
            obtain rfl := by simpa using h
            obtain ⟨f1, f2, f3, f4⟩ := ihL n vs st (i + 1) _ heq
            refine ⟨f1, f2, f3, ?_⟩
            intro e he
            rcases List.mem_cons.mp he with rfl | he'
            · exact Or.inl rfl
            · exact f4 e he'
          · next stA trA heq =>
            obtain rfl := by simpa using h
            obtain ⟨f1, f2, f3, f4⟩ := ihL n vs st (i + 1) _ heq
            refine ⟨f1, f2, f3, ?_⟩
            intro e he
            rcases List.mem_cons.mp he with rfl | he'
            · exact Or.inl rfl
            · exact f4 e he'
        · -- once registration
          next f hr =>
          split at h
          · exact absurd h (by simp)
          · next st1 tr1 heq1 =>
            obtain rfl := by simpa using h
            exact ihR n i st (Except.ok (st1, tr1)) heq1
          · next c heq1 =>
            obtain rfl := by simpa using h
            exact ihR n i st (Except.error c) heq1
      · obtain rfl := by simpa using h
        exact dispatchInv_rfl n st
    · -- removeAtF
      intro n i st res h
      simp only [removeAtF] at h
      split at h
      · obtain rfl := by simpa using h
        exact dispatchInv_rfl n st
      · next r hget =>
        have hsome : (lookupE n st.events).isSome := by
          apply @regsOf_ne_nil_isSome n st
          intro hnil
          rw [hnil] at hget
          simp at hget
        have hmid_self :
            regsOf n { updList n ((regsOf n st).eraseIdx i) st with
              eventsCount := st.eventsCount - 1 } = (regsOf n st).eraseIdx i := by
          have hx := lookupE_updE_self n ((regsOf n st).eraseIdx i) st.events hsome
          simp [regsOf, updList] at hx ⊢
          simp [hx]
        have hmid_ne : ∀ m, m ≠ n →
            regsOf m { updList n ((regsOf n st).eraseIdx i) st with
              eventsCount := st.eventsCount - 1 } = regsOf m st := by
          intro m hm
          have hx := lookupE_updE_ne n m ((regsOf n st).eraseIdx i) hm st.events
          simp [regsOf, updList] at hx ⊢
          simp [hx]
        have hkeys : keysF { updList n ((regsOf n st).eraseIdx i) st with
            eventsCount := st.eventsCount - 1 } = keysF st := by
          simp [keysF, updList, map_fst_updE]
        split at h
        · exact absurd h (by simp)
        · next bb st2 trI heq =>
          obtain rfl := by simpa using h
          obtain ⟨e1, e2, e3, e4⟩ := ihE "removeListener" [Val.str n, regVal r] _ _ heq
          refine ⟨?_, ?_, ?_, ?_⟩
          · intro m hm1 hm2
            have := e1 m hm2 hm2
            simp only [eout] at this
            simp only [lout]
            rw [this, hmid_ne m hm1]
          · intro m
            have := e2 m
            simp only [eout] at this
            simp only [lout]
            refine this.trans ?_
            by_cases hm : m = n
            · subst hm
              rw [hmid_self]
              exact eraseIdx_sublist (regsOf m st) i
            · rw [hmid_ne m hm]
          · have := e3
            simp only [eout] at this
            simp only [lout]
            exact this.trans hkeys
          · simp only [lout]
            intro e he
            rcases List.mem_cons.mp he with rfl | he'
            · exact Or.inl rfl
            · have := e4 e (by simpa [eout] using he')
              rcases this with h' | h' <;> exact Or.inr h'
        · next st2 trI heq =>
          obtain rfl := by simpa using h
          obtain ⟨e1, e2, e3, e4⟩ := ihE "removeListener" [Val.str n, regVal r] _ _ heq
          refine ⟨?_, ?_, ?_, ?_⟩
          · intro m hm1 hm2
            have := e1 m hm2 hm2
            simp only [eout] at this
            simp only [lout]
            rw [this, hmid_ne m hm1]
          · intro m
            have := e2 m
            simp only [eout] at this
            simp only [lout]
            refine this.trans ?_
            by_cases hm : m = n
            · subst hm
              rw [hmid_self]
              exact eraseIdx_sublist (regsOf m st) i
            · rw [hmid_ne m hm]
          · have := e3
            simp only [eout] at this
            simp only [lout]
            exact this.trans hkeys
          · simp only [lout]
            intro e he
            rcases List.mem_cons.mp he with rfl | he'
            · exact Or.inl rfl
            · have := e4 e (by simpa [eout] using he')
              rcases this with h' | h' <;> exact Or.inr h'

/-! ### Trace projections and the positional walk -/

/-- The invocations performed for listeners of `n`, in order, each with its
argument list. -/
def invokesOf (n : String) (tr : List Ev) : List (Reg × List Val) :=
  tr.filterMap (fun e =>
    match e with
    | .invoke m r a => if m = n then some (r, a) else none
    | _ => none)

lemma invokesOf_append (n : String) (a b : List Ev) :
    invokesOf n (a ++ b) = invokesOf n a ++ invokesOf n b := by
  simp [invokesOf, List.filterMap_append]

lemma invokesOf_foreign {n : String} {tr : List Ev}
    (h : ∀ e ∈ tr, e.tag = some "removeListener") (hn : n ≠ "removeListener") :
    invokesOf n tr = [] := by
  induction tr with
  | nil => rfl
  | cons e tr ih =>
    have hrest : invokesOf n tr = [] := ih (fun e' he' => h e' (by simp [he']))
    have he := h e (by simp)
    cases e with
    | invoke m r a =>
      have hm : m = "removeListener" := by simpa [Ev.tag] using he
      have : ¬ m = n := by rw [hm]; exact fun hx => hn hx.symm
      simp [invokesOf, List.filterMap_cons, this] at hrest ⊢
      exact hrest
    | removed m r => simpa [invokesOf, List.filterMap_cons] using hrest
    | warn => simpa [invokesOf, List.filterMap_cons] using hrest

lemma invokesOf_cons_removed (n m : String) (r : Reg) (tr : List Ev) :
    invokesOf n (Ev.removed m r :: tr) = invokesOf n tr := by
  simp [invokesOf, List.filterMap_cons]

lemma invokesOf_cons_invoke_self (n : String) (r : Reg) (a : List Val) (tr : List Ev) :
    invokesOf n (Ev.invoke n r a :: tr) = (r, a) :: invokesOf n tr := by
  simp [invokesOf, List.filterMap_cons]

lemma invokesOf_map_invoke (n : String) (vs : List Val) :
    ∀ P : List Reg,
      invokesOf n (P.map (fun r => Ev.invoke n r vs)) = P.map (fun r => (r, vs)) := by
  intro P
  induction P with
  | nil => rfl
  | cons r rest ih => simp [invokesOf_cons_invoke_self, ih]

/-- Every sequence is either all bare callbacks or a bare-callback prefix
followed by a `Listener` wrapper. -/
lemma split_plain : ∀ L : List Reg,
    L.all Reg.isPlain = true ∨
    ∃ P g S, L = P ++ Reg.once g :: S ∧ P.all Reg.isPlain = true := by
  intro L
  induction L with
  | nil => exact Or.inl rfl
  | cons r rest ih =>
    cases r with
    | once g => exact Or.inr ⟨[], g, rest, rfl, rfl⟩
    | plain f =>
      rcases ih with h | ⟨P, g, S, hrest, hP⟩
      · exact Or.inl (by simp [List.all_cons, Reg.isPlain, h])
      · exact Or.inr ⟨Reg.plain f :: P, g, S, by simp [hrest],
          by simp [List.all_cons, Reg.isPlain]; simpa using hP⟩

lemma get_of_eq_list {l l' : List Reg} (h : l = l') {i : Nat} (hi : i < l.length) :
    l.get ⟨i, hi⟩ = l'.get ⟨i, h ▸ hi⟩ := by subst h; rfl

lemma getq_append_cons (K : List Reg) (r : Reg) (R : List Reg) :
    (K ++ r :: R).get? K.length = some r := by
  induction K with
  | nil => rfl
  | cons a K ih => simpa using ih

/-- A walk over a suffix of bare callbacks completes, invokes each of them
in order with the supplied values, and leaves the state untouched (no
wrapper is reached, so nothing is removed and nothing is dispatched
re-entrantly). -/
lemma loopF_plain : ∀ fuel n vs st K R res,
    regsOf n st = K ++ R → R.all Reg.isPlain = true →
    loopF fuel n vs st K.length = some res →
    res = Except.ok (st, R.map (fun r => Ev.invoke n r vs)) := by
  intro fuel
  induction fuel with
  | zero =>
    intro n vs st K R res hreg hP h
    exact absurd h (by simp [loopF])
  | succ fuel ih =>
    intro n vs st K R res hreg hP h
    simp only [loopF] at h
    cases R with
    | nil =>
      have hlen : ¬ K.length < (regsOf n st).length := by rw [hreg]; simp
      rw [dif_neg hlen] at h
      obtain rfl := by simpa using h
      rfl
    | cons r R' =>
      have hlt : K.length < (regsOf n st).length := by rw [hreg]; simp
      rw [dif_pos hlt] at h
      have hget : (regsOf n st).get ⟨K.length, hlt⟩ = r :=
        (get_of_eq_list hreg hlt).trans (getAt_append_cons K r R' _)
      rw [hget] at h
      cases r with
      | once g => simp [List.all_cons, Reg.isPlain] at hP
      | plain f =>
        have hP2 := hP
        simp [List.all_cons] at hP2
        have hP' : R'.all Reg.isPlain = true := by
          rw [List.all_eq_true]; exact hP2.2
        dsimp only at h
        split at h
        · exact absurd h (by simp)
        · next stA trA heq =>
          have heq' : loopF fuel n vs st (K ++ [Reg.plain f]).length
              = some (Except.ok (stA, trA)) := by simpa using heq
          have hrec := ih n vs st (K ++ [Reg.plain f]) R' (Except.ok (stA, trA))
            (by simpa using hreg) hP' heq'
          obtain ⟨rfl, rfl⟩ := by simpa using hrec
          obtain rfl := by simpa using h
          simp
        · next stA trA heq =>
          have heq' : loopF fuel n vs st (K ++ [Reg.plain f]).length
              = some (Except.error (stA, trA)) := by simpa using heq
          have hrec := ih n vs st (K ++ [Reg.plain f]) R' (Except.error (stA, trA))
            (by simpa using hreg) hP' heq'
          simp at hrec

/-- A walk that reaches a `Listener` wrapper (after a bare-callback prefix
`P`) invokes the prefix in order, splices the wrapper out, dispatches the
`removeListener` notification, and then throws the `TypeError`: the wrapped
callback is never invoked and no later entry is visited. -/
lemma loopF_wrapper : ∀ fuel n vs st K P g S res,
    regsOf n st = K ++ (P ++ Reg.once g :: S) → P.all Reg.isPlain = true →
    loopF fuel n vs st K.length = some res →
    ∃ fuel' innerRes,
      emitF fuel' "removeListener" [Val.str n, Val.wrapper g]
        { updList n ((K ++ P) ++ S) st with eventsCount := st.eventsCount - 1 }
        = some innerRes ∧
      res = Except.error ((eout innerRes).1,
        (P.map fun r => Ev.invoke n r vs)
          ++ Ev.removed n (Reg.once g) :: (eout innerRes).2) := by
  intro fuel
  induction fuel with
  | zero =>
    intro n vs st K P g S res hreg hP h
    exact absurd h (by simp [loopF])
  | succ fuel ih =>
    intro n vs st K P g S res hreg hP h
    simp only [loopF] at h
    cases P with
    | nil =>
      rw [List.nil_append] at hreg
      have hlt : K.length < (regsOf n st).length := by rw [hreg]; simp
      rw [dif_pos hlt] at h
      have hget : (regsOf n st).get ⟨K.length, hlt⟩ = Reg.once g :=
        (get_of_eq_list hreg hlt).trans (getAt_append_cons K (Reg.once g) S _)
      rw [hget] at h
      dsimp only at h
      split at h
      · exact absurd h (by simp)
      · next st1 tr1 heq1 =>
        obtain rfl := by simpa using h
        cases fuel with
        | zero => simp [removeAtF] at heq1
        | succ fuel' =>
        simp only [removeAtF] at heq1
        rw [hreg, getq_append_cons, eraseIdx_append_cons] at heq1
        dsimp only at heq1
        split at heq1
        · exact absurd heq1 (by simp)
        · next bb stI trI heqE =>
          obtain ⟨rfl, rfl⟩ := by simpa using heq1
          refine ⟨fuel', Except.ok (bb, stI, trI), ?_, by simp [eout]⟩
          rw [show (K ++ ([] : List Reg)) ++ S = K ++ S by simp]
          exact heqE
        · next stI trI heqE => exact absurd heq1 (by simp)
      · next c heq1 =>
        obtain rfl := by simpa using h
        obtain ⟨cst, ctr⟩ := c
        cases fuel with
        | zero => simp [removeAtF] at heq1
        | succ fuel' =>
        simp only [removeAtF] at heq1
        rw [hreg, getq_append_cons, eraseIdx_append_cons] at heq1
        dsimp only at heq1
        split at heq1
        · exact absurd heq1 (by simp)
        · next bb stI trI heqE => exact absurd heq1 (by simp)
        · next stI trI heqE =>
          obtain ⟨rfl, rfl⟩ := by simpa using heq1
          refine ⟨fuel', Except.error (stI, trI), ?_, by simp [eout]⟩
          rw [show (K ++ ([] : List Reg)) ++ S = K ++ S by simp]
          exact heqE
    | cons p P' =>
      cases p with
      | once g2 => simp [List.all_cons, Reg.isPlain] at hP
      | plain f =>
        have hP2 := hP
        simp [List.all_cons] at hP2
        have hP' : P'.all Reg.isPlain = true := by
          rw [List.all_eq_true]; exact hP2.2
        have hreg' : regsOf n st = K ++ Reg.plain f :: (P' ++ Reg.once g :: S) := by
          simpa using hreg
        have hlt : K.length < (regsOf n st).length := by rw [hreg']; simp
        rw [dif_pos hlt] at h
        have hget : (regsOf n st).get ⟨K.length, hlt⟩ = Reg.plain f :=
          (get_of_eq_list hreg' hlt).trans (getAt_append_cons K (Reg.plain f) _ _)
        rw [hget] at h
        dsimp only at h
        split at h
        · exact absurd h (by simp)
        · next stA trA heq =>
          have heq' : loopF fuel n vs st (K ++ [Reg.plain f]).length
              = some (Except.ok (stA, trA)) := by simpa using heq
          obtain ⟨fuel', innerRes, hE, hres⟩ :=
            ih n vs st (K ++ [Reg.plain f]) P' g S (Except.ok (stA, trA))
              (by simpa using hreg') hP' heq'
          simp at hres
        · next stA trA heq =>
          obtain rfl := by simpa using h
          have heq' : loopF fuel n vs st (K ++ [Reg.plain f]).length
              = some (Except.error (stA, trA)) := by simpa using heq
          obtain ⟨fuel', innerRes, hE, hres⟩ :=
            ih n vs st (K ++ [Reg.plain f]) P' g S (Except.error (stA, trA))
              (by simpa using hreg') hP' heq'
          simp only [Except.error.injEq, Prod.mk.injEq] at hres
          refine ⟨fuel', innerRes, ?_, ?_⟩
          · rw [show (K ++ Reg.plain f :: P') ++ S
                = ((K ++ [Reg.plain f]) ++ P') ++ S by simp]
            exact hE
          · simp [hres.1, hres.2]

/-- Top-level specification of `emit`: `false` (and no state change, no
steps) exactly on an absent or empty sequence; a nonempty all-plain
sequence is dispatched completely (`true`, every registration invoked once
in order, state untouched); a sequence containing a `Listener` wrapper
throws after invoking the bare prefix and splicing the first wrapper, whose
callback is never invoked. -/
lemma emitF_spec (fuel : Nat) (n : String) (vs : List Val) (st : EmitterState)
    (res : Except Crash (Bool × EmitterState × List Ev))
    (h : emitF fuel n vs st = some res) :
    (regsOf n st = [] → res = Except.ok (false, st, ([] : List Ev))) ∧
    (regsOf n st ≠ [] → (regsOf n st).all Reg.isPlain = true →
      res = Except.ok (true, st, (regsOf n st).map (fun r => Ev.invoke n r vs))) ∧
    (∀ P g S, regsOf n st = P ++ Reg.once g :: S → P.all Reg.isPlain = true →
      ∃ fuel' innerRes,
        emitF fuel' "removeListener" [Val.str n, Val.wrapper g]
          { updList n (P ++ S) st with eventsCount := st.eventsCount - 1 }
          = some innerRes ∧
        res = Except.error ((eout innerRes).1,
          (P.map fun r => Ev.invoke n r vs)
            ++ Ev.removed n (Reg.once g) :: (eout innerRes).2)) := by
  cases fuel with
  | zero => exact absurd h (by simp [emitF])
  | succ fuel =>
    simp only [emitF] at h
    split at h
    · next hemp =>
      obtain rfl := by simpa using h
      have he : regsOf n st = [] := by simpa using hemp
      refine ⟨fun _ => rfl, fun hne _ => absurd he hne, ?_⟩
      intro P g S hdec _
      rw [he] at hdec
      exact absurd hdec.symm (by simp)
    · next hemp =>
      have hne : regsOf n st ≠ [] := by simpa using hemp
      split at h
      · exact absurd h (by simp)
      · next st1 tr1 heq =>
        obtain rfl := by simpa using h
        refine ⟨fun hx => absurd hx hne, ?_, ?_⟩
        · intro _ hall
          have hpl := loopF_plain fuel n vs st [] (regsOf n st) (Except.ok (st1, tr1))
            (by simp) hall heq
          obtain ⟨rfl, rfl⟩ := by simpa using hpl
          rfl
        · intro P g S hdec hP
          obtain ⟨fuel', innerRes, hE, hres⟩ :=
            loopF_wrapper fuel n vs st [] P g S (Except.ok (st1, tr1))
              (by simpa using hdec) hP heq
          simp at hres
      · next c heq =>
        obtain rfl := by simpa using h
        refine ⟨fun hx => absurd hx hne, ?_, ?_⟩
        · intro _ hall
          have hpl := loopF_plain fuel n vs st [] (regsOf n st) (Except.error c)
            (by simp) hall heq
          simp at hpl
        · intro P g S hdec hP
          obtain ⟨fuel', innerRes, hE, hres⟩ :=
            loopF_wrapper fuel n vs st [] P g S (Except.error c)
              (by simpa using hdec) hP heq
          simp only [Except.error.injEq] at hres
          exact ⟨fuel', innerRes, hE, by rw [hres]⟩

lemma findFirstIdx_none_of (f : FnId) :
    ∀ l : List Reg, (∀ r ∈ l, Reg.fnOf r ≠ f) → findFirstIdx f l = none := by
  intro l
  induction l with
  | nil => intro _; rfl
  | cons r rest ih =>
    intro hl
    have hr : Reg.fnOf r ≠ f := hl r (by simp)
    simp only [findFirstIdx, if_neg hr]
    rw [ih (fun r' hr' => hl r' (by simp [hr']))]
    rfl

lemma findFirstIdx_spec (f : FnId) :
    ∀ (l : List Reg) (i : Nat), findFirstIdx f l = some i →
      (∃ r, l.get? i = some r ∧ r.fnOf = f) ∧
      (∀ j r', j < i → l.get? j = some r' → r'.fnOf ≠ f) := by
  intro l
  induction l with
  | nil => intro i h; simp [findFirstIdx] at h
  | cons r rest ih =>
    intro i h
    by_cases hr : r.fnOf = f
    · simp only [findFirstIdx, if_pos hr] at h
      obtain rfl : (0 : Nat) = i := by simpa using h
      exact ⟨⟨r, rfl, hr⟩, fun j r' hj _ => absurd hj (by omega)⟩
    · simp only [findFirstIdx, if_neg hr] at h
      cases hrec : findFirstIdx f rest with
      | none => rw [hrec] at h; simp at h
      | some k =>
        rw [hrec] at h
        obtain rfl : k + 1 = i := by simpa using h
        obtain ⟨⟨r', hr', hf'⟩, hbefore⟩ := ih k hrec
        refine ⟨⟨r', by simpa using hr', hf'⟩, ?_⟩
        intro j r'' hj hget
        cases j with
        | zero =>
          obtain rfl : r = r'' := by simpa using hget
          exact hr
        | succ j' =>
          exact hbefore j' r'' (by omega) (by simpa using hget)

lemma findFirstIdx_append_fresh (f : FnId) (L : List Reg) (x : Reg)
    (hL : ∀ r ∈ L, Reg.fnOf r ≠ f) (hx : Reg.fnOf x = f) :
    findFirstIdx f (L ++ [x]) = some L.length := by
  induction L with
  | nil => simp [findFirstIdx, hx]
  | cons r rest ih =>
    have hr : Reg.fnOf r ≠ f := hL r (by simp)
    simp only [List.cons_append, findFirstIdx, if_neg hr, List.append_eq]
    rw [ih (fun r' hr' => hL r' (by simp [hr']))]
    rfl

lemma lookupE_isSome_iff_mem (n : String) :
    ∀ es : List (String × List Reg), (lookupE n es).isSome ↔ n ∈ es.map Prod.fst := by
  intro es
  induction es with
  | nil => simp [lookupE]
  | cons p rest ih =>
    obtain ⟨k, l⟩ := p
    by_cases hk : k = n
    · subst hk; simp [lookupE]
    · simp only [lookupE, if_neg hk, List.map_cons, List.mem_cons]
      constructor
      · intro h; exact Or.inr (ih.mp h)
      · intro h
        rcases h with h | h
        · exact absurd h.symm hk
        · exact ih.mpr h


lemma map_fst_filter_ne (n : String) : ∀ es : List (String × List Reg),
    (es.filter (fun p => p.1 != n)).map Prod.fst
      = (es.map Prod.fst).filter (fun m => m != n) := by
  intro es
  induction es with
  | nil => rfl
  | cons q rest ih =>
    obtain ⟨k, l⟩ := q
    by_cases hk : k = n
    · subst hk; simp [List.filter_cons, ih]
    · simp [List.filter_cons, hk, ih]


/-! ### The add path and the removal scan -/

/-- Unfolding of a completing `_on`: the `newListener` notification is
dispatched first and completes, on the pre-mutation state; only afterwards
is the (possibly wrapped) registration prepended or appended to the
sequence read from the post-dispatch state, with the warning decided by the
instance-wide `eventsCount` of that state. -/
lemma onAux_spec (fuel : Nat) (dflt : JNum) (n : String) (f : FnId) (p o : Bool)
    (st st2 : EmitterState) (tr : List Ev)
    (h : onAux fuel dflt n f p o st = some (Except.ok (st2, tr))) :
    ∃ b st1 tr1,
      emitF fuel "newListener" [Val.str n, Val.fn f] st = some (Except.ok (b, st1, tr1)) ∧
      tr = tr1 ++ (if (st1.maxListeners.getD dflt != JNum.fin 0) &&
            ((st1.maxListeners.getD dflt) != JNum.inf) &&
            gtJ (st1.eventsCount + 1) (st1.maxListeners.getD dflt) then [Ev.warn] else []) ∧
      st2 = { st1 with
        events := insertE n
          (if p then (if o then Reg.once f else Reg.plain f) :: regsOf n st1
           else regsOf n st1 ++ [if o then Reg.once f else Reg.plain f]) st1.events,
        eventsCount := st1.eventsCount + 1 } := by
  unfold onAux at h
  split at h
  · exact absurd h (by simp)
  · exact absurd h (by simp)
  · next b st1 tr1 heq =>
    simp only [Option.some.injEq, Except.ok.injEq, Prod.mk.injEq] at h
    obtain ⟨hst, htr⟩ := h
    exact ⟨b, st1, tr1, heq, htr.symm, hst.symm⟩

/-- For a name that is not one of the reserved notification names, a
completing add appends (or prepends) the new registration to the unchanged
sequence, and every other unreserved name's sequence is untouched. -/
lemma onAux_regs (fuel : Nat) (dflt : JNum) (n : String) (f : FnId) (p o : Bool)
    (st st2 : EmitterState) (tr : List Ev)
    (h : onAux fuel dflt n f p o st = some (Except.ok (st2, tr)))
    (hn1 : n ≠ "newListener") (hn2 : n ≠ "removeListener") :
    regsOf n st2 = (if p then (if o then Reg.once f else Reg.plain f) :: regsOf n st
                    else regsOf n st ++ [if o then Reg.once f else Reg.plain f]) ∧
    (∀ m, m ≠ n → m ≠ "newListener" → m ≠ "removeListener" →
      regsOf m st2 = regsOf m st) := by
  obtain ⟨b, st1, tr1, heq, htr, hst⟩ := onAux_spec fuel dflt n f p o st st2 tr h
  obtain ⟨f1, _, _, _⟩ := (dispatchInvariants fuel).1 _ _ _ _ heq
  have f1' : ∀ m, m ≠ "newListener" → m ≠ "removeListener" →
      regsOf m st1 = regsOf m st := by
    intro m hm1 hm2
    have := f1 m hm1 hm2
    simpa [eout] using this
  constructor
  · rw [hst]
    have hx := lookupE_insertE_self n
      (if p then (if o then Reg.once f else Reg.plain f) :: regsOf n st1
       else regsOf n st1 ++ [if o then Reg.once f else Reg.plain f]) st1.events
    have hf := f1' n hn1 hn2
    simp only [regsOf] at hx hf ⊢
    rw [hx]
    simp [hf]
  · intro m hm1 hm2 hm3
    rw [hst]
    have hx := lookupE_insertE_ne n m
      (if p then (if o then Reg.once f else Reg.plain f) :: regsOf n st1
       else regsOf n st1 ++ [if o then Reg.once f else Reg.plain f]) st1.events hm1
    have hf := f1' m hm2 hm3
    simp only [regsOf] at hx hf ⊢
    rw [hx]
    simp [hf]

/-- `removeListener` with no sequence, an empty sequence, or no matching
registration is a silent no-op returning the instance. -/
lemma removeListenerF_noop (fuel : Nat) (n : String) (f : FnId) (st : EmitterState)
    (res : Except Crash (EmitterState × List Ev))
    (h : removeListenerF fuel n f st = some res)
    (hno : ∀ r ∈ regsOf n st, Reg.fnOf r ≠ f) : res = Except.ok (st, ([] : List Ev)) := by
  simp only [removeListenerF] at h
  split at h
  · obtain rfl := by simpa using h
    rfl
  · rw [findFirstIdx_none_of f _ hno] at h
    dsimp only at h
    obtain rfl := by simpa using h
    rfl

/-- `removeListener` with a match: the first matching registration is
spliced out and the `removeListener` notification is dispatched with the
removed registration itself as payload; the notification's outcome (return
or propagated throw) is the outcome of `removeListener`. -/
lemma removeListenerF_match (fuel : Nat) (n : String) (f : FnId) (st : EmitterState)
    (res : Except Crash (EmitterState × List Ev)) (i : Nat)
    (hidx : findFirstIdx f (regsOf n st) = some i)
    (h : removeListenerF (fuel + 1) n f st = some res) :
    ∃ r innerRes,
      (regsOf n st).get? i = some r ∧ r.fnOf = f ∧
      emitF fuel "removeListener" [Val.str n, regVal r]
        { updList n ((regsOf n st).eraseIdx i) st with eventsCount := st.eventsCount - 1 }
        = some innerRes ∧
      lout res = ((eout innerRes).1, Ev.removed n r :: (eout innerRes).2) ∧
      (∀ s t, innerRes = Except.error (s, t) → res = Except.error (s, Ev.removed n r :: t)) ∧
      (∀ b s t, innerRes = Except.ok (b, s, t) → res = Except.ok (s, Ev.removed n r :: t)) := by
  obtain ⟨⟨r, hget, hf⟩, _⟩ := findFirstIdx_spec f (regsOf n st) i hidx
  simp only [removeListenerF] at h
  split at h
  · next hemp =>
    have : regsOf n st = [] := by simpa using hemp
    rw [this] at hget; simp at hget
  · rw [hidx] at h
    dsimp only at h
    simp only [removeAtF, hget] at h
    split at h
    · exact absurd h (by simp)
    · next bb stI trI heqE =>
      obtain rfl := by simpa using h
      refine ⟨r, Except.ok (bb, stI, trI), hget, hf, heqE, by simp [lout, eout], ?_, ?_⟩
      · intro s t hx; simp at hx
      · intro b s t hx
        obtain ⟨rfl, rfl, rfl⟩ := by simpa using hx
        rfl
    · next stI trI heqE =>
      obtain rfl := by simpa using h
      refine ⟨r, Except.error (stI, trI), hget, hf, heqE, by simp [lout, eout], ?_, ?_⟩
      · intro s t hx
        obtain ⟨rfl, rfl⟩ := by simpa using hx
        rfl
      · intro b s t hx; simp at hx

/-! ### Claim theorems -/

/-- C7: the claim says `setMaxListeners(n)` fails with `RangeOutOfBounds`
when `n` is negative or not a valid number, leaving the override unmodified.
The code only rejects non-numbers and `NaN` (`typeof n !== 'number' ||
Number.isNaN(n)`): a negative argument such as `-1` is accepted and stored
as the per-instance override, contradicting the code's own error message
("It must be a non-negative number") and the repository test named
"rejects negative numbers".  This theorem evaluates the code on the failing
input `-1` (and on the inputs the code does reject). -/
theorem claim7_setMaxListeners (st : EmitterState) :
    setMaxListenersF (NumArg.num (JNum.fin (-1))) st
        = Except.ok { st with maxListeners := some (JNum.fin (-1)) } ∧
    setMaxListenersF (NumArg.num JNum.nan) st = Except.error () ∧
    setMaxListenersF NumArg.notNum st = Except.error () := by
  refine ⟨?_, ?_, rfl⟩ <;> simp [setMaxListenersF]

/-- C9: `removeAllListeners(name)` empties only `name`'s sequence
(`listenerCount`/`listeners` then report empty) and leaves every other
name's sequence unchanged; the no-argument form empties every sequence;
neither form produces any notification or other step. -/
theorem claim9_removeAllListeners (st : EmitterState) (n m : String) (hm : m ≠ n) :
    listenerCountF n ((removeAllListenersF (some n) st).1) = 0 ∧
    listenersF n ((removeAllListenersF (some n) st).1) = [] ∧
    regsOf m ((removeAllListenersF (some n) st).1) = regsOf m st ∧
    regsOf m ((removeAllListenersF none st).1) = [] ∧
    (removeAllListenersF (some n) st).2 = [] ∧
    (removeAllListenersF none st).2 = [] := by
  refine ⟨?_, ?_, ?_, ?_, rfl, rfl⟩
  · simp [listenerCountF, regsOf, removeAllListenersF, lookupE_filter_self]
  · simp [listenersF, regsOf, removeAllListenersF, lookupE_filter_self]
  · simp [regsOf, removeAllListenersF, lookupE_filter_ne n m st.events hm]
  · simp [regsOf, removeAllListenersF, lookupE]

def stW9 : EmitterState := ⟨[("a", [Reg.plain 0]), ("b", [Reg.plain 1])], 2, none⟩

/-- Witness for C9 on a concrete registry with two event names. -/
theorem claim9_witness :
    ("b" : String) ≠ "a" ∧
    (listenerCountF "a" ((removeAllListenersF (some "a") stW9).1) = 0 ∧
     listenersF "a" ((removeAllListenersF (some "a") stW9).1) = [] ∧
     regsOf "b" ((removeAllListenersF (some "a") stW9).1) = regsOf "b" stW9 ∧
     regsOf "b" ((removeAllListenersF none stW9).1) = [] ∧
     (removeAllListenersF (some "a") stW9).2 = [] ∧
     (removeAllListenersF none stW9).2 = []) :=
  ⟨by decide, claim9_removeAllListeners stW9 "a" "b" (by decide)⟩

def stW8 : EmitterState := ⟨[("a", [Reg.plain 0])], 1, none⟩

/-- C8 counterexample: the claim says `eventNames()` retains every name
ever registered, even after clears.  But `removeAllListeners('a')` performs
`delete this.events['a']`, so the name disappears from `eventNames()`. -/
theorem claim8_counterexample :
    "a" ∈ eventNamesF stW8 ∧
    eventNamesF ((removeAllListenersF (some "a") stW8).1) = [] := by
  refine ⟨by decide, by decide⟩

/-- C8 (amended): for registries whose keys are all non-array-index string
names — JS enumerates array-index keys (canonical numerals below 2^32 − 1)
first in ascending numeric order and `Object.keys` omits symbol keys, so
only non-index names observe pure insertion order — `eventNames()` lists
the names currently present in first-seen order: a completing add appends
the name exactly when it is absent, a single `removeListener` removal keeps
every name even when a sequence becomes empty (whether the notification
dispatch returns or throws), but `removeAllListeners(name)` deletes the
name and `removeAllListeners()` deletes all names. -/
theorem claim8_eventNames (fuel : Nat) (dflt : JNum) (n : String) (f g : FnId)
    (p o : Bool) (st st2 : EmitterState) (tr : List Ev)
    (res3 : Except Crash (EmitterState × List Ev))
    (hni : isArrayIndex n = false)
    (hall : ∀ m ∈ keysF st, isArrayIndex m = false)
    (hadd : onAux fuel dflt n f p o st = some (Except.ok (st2, tr)))
    (hrem : removeListenerF fuel n g st = some res3) :
    eventNamesF st2 =
      (if n ∈ eventNamesF st then eventNamesF st else eventNamesF st ++ [n]) ∧
    eventNamesF (lout res3).1 = eventNamesF st ∧
    eventNamesF ((removeAllListenersF (some n) st).1) =
      (eventNamesF st).filter (fun m => m != n) ∧
    eventNamesF ((removeAllListenersF none st).1) = [] := by
  have hst : eventNamesF st = keysF st := enumOrder_nonindex hall
  refine ⟨?_, ?_, ?_, ?_⟩
  · -- completing add
    obtain ⟨b, st1, tr1, heq, htr, hstEq⟩ := onAux_spec fuel dflt n f p o st st2 tr hadd
    obtain ⟨_, _, e3, _⟩ := (dispatchInvariants fuel).1 _ _ _ _ heq
    have hk1 : keysF st1 = keysF st := by simpa [eout] using e3
    have hall1 : ∀ m ∈ keysF st1, isArrayIndex m = false := by
      intro m hm; exact hall m (hk1 ▸ hm)
    have hkeys2 : keysF st2 =
        (if (lookupE n st1.events).isSome then keysF st1 else keysF st1 ++ [n]) := by
      rw [hstEq]
      have := map_fst_insertE n
        (if p then (if o then Reg.once f else Reg.plain f) :: regsOf n st1
         else regsOf n st1 ++ [if o then Reg.once f else Reg.plain f]) st1.events
      simpa [keysF] using this
    have hmemiff : (lookupE n st1.events).isSome ↔ n ∈ eventNamesF st := by
      rw [hst, ← hk1]
      exact lookupE_isSome_iff_mem n st1.events
    by_cases hin : (lookupE n st1.events).isSome
    · rw [if_pos (hmemiff.mp hin)]
      unfold eventNamesF
      rw [hkeys2, if_pos hin, hk1]
    · rw [if_neg (fun hc => hin (hmemiff.mpr hc))]
      unfold eventNamesF
      rw [hkeys2, if_neg hin]
      have hall2 : ∀ m ∈ keysF st1 ++ [n], isArrayIndex m = false := by
        intro m hm
        rcases List.mem_append.mp hm with hm' | hm'
        · exact hall1 m hm'
        · obtain rfl : m = n := by simpa using hm'
          exact hni
      rw [enumOrder_nonindex hall2, hk1, enumOrder_nonindex hall]
  · -- single removal keeps every name
    have hkeep : keysF (lout res3).1 = keysF st := by
      simp only [removeListenerF] at hrem
      split at hrem
      · obtain rfl := by simpa using hrem
        rfl
      · split at hrem
        · obtain rfl := by simpa using hrem
          rfl
        · next i hidx =>
          obtain ⟨_, _, e3, _⟩ := (dispatchInvariants fuel).2.2 _ _ _ _ hrem
          exact e3
    unfold eventNamesF
    rw [hkeep]
  · -- removeAllListeners(name) deletes the name
    have hkeys : keysF ((removeAllListenersF (some n) st).1)
        = (keysF st).filter (fun m => m != n) := by
      simpa [keysF, removeAllListenersF] using map_fst_filter_ne n st.events
    have hall3 : ∀ m ∈ (keysF st).filter (fun m => m != n), isArrayIndex m = false := by
      intro m hm
      exact hall m (List.mem_of_mem_filter hm)
    unfold eventNamesF
    rw [hkeys, enumOrder_nonindex hall3, enumOrder_nonindex hall]
  · rfl

def stW8b : EmitterState := ⟨[("a", [Reg.plain 0])], 1, none⟩

/-- Witness for the amended C8 on a concrete registry: adding a fresh name
appends it to `eventNames()`, a no-op removal changes nothing, and the two
clear forms delete names. -/
theorem claim8_witness :
    (isArrayIndex "b" = false ∧ (∀ m ∈ keysF stW8b, isArrayIndex m = false) ∧
     onAux 9 (JNum.fin 10) "b" 1 false false stW8b
       = some (Except.ok
           ((⟨[("a", [Reg.plain 0]), ("b", [Reg.plain 1])], 2, none⟩ : EmitterState),
            ([] : List Ev))) ∧
     removeListenerF 9 "b" 0 stW8b = some (Except.ok (stW8b, ([] : List Ev)))) ∧
    (eventNamesF (⟨[("a", [Reg.plain 0]), ("b", [Reg.plain 1])], 2, none⟩ : EmitterState)
       = (if "b" ∈ eventNamesF stW8b then eventNamesF stW8b
          else eventNamesF stW8b ++ ["b"]) ∧
     eventNamesF (lout (Except.ok (stW8b, ([] : List Ev)))).1 = eventNamesF stW8b ∧
     eventNamesF ((removeAllListenersF (some "b") stW8b).1)
       = (eventNamesF stW8b).filter (fun m => m != "b") ∧
     eventNamesF ((removeAllListenersF none stW8b).1) = []) :=
  ⟨⟨by decide, by decide, by decide, by decide⟩,
   claim8_eventNames 9 (JNum.fin 10) "b" 1 0 false false stW8b _ [] _
     (by decide) (by decide) (by decide) (by decide)⟩

def stW3 : EmitterState := ⟨[("t", [Reg.plain 0, Reg.plain 1, Reg.once 0])], 3, none⟩

def stW3r : EmitterState := ⟨[("t", [Reg.plain 1, Reg.once 0])], 2, none⟩

/-- C3 counterexample: the claim (and the spec's own example) says that with
registrations `[fn, g, once(fn)]` one `removeListener('t', fn)` yields
`[fn, g]` — last matching index wins.  The code scans from index 0 and
`break`s on the first match, so it removes the bare `fn` at index 0 and
yields `[g, once(fn)]`. -/
theorem claim3_counterexample :
    removeListenerF 9 "t" 0 stW3
        = some (Except.ok (stW3r, [Ev.removed "t" (Reg.plain 0)])) ∧
    regsOf "t" stW3r = [Reg.plain 1, Reg.once 0] ∧
    ([Reg.plain 1, Reg.once 0] : List Reg) ≠ [Reg.plain 0, Reg.plain 1] := by
  refine ⟨by decide, by decide, by decide⟩

/-- C3 (amended): one `removeListener(name, listener)` call removes exactly
the FIRST matching registration in sequence order (lowest matching index
wins; a registration matches by identity or via its wrapped original), and
— whether the removal notification's dispatch returns or throws — no other
entry of any unreserved name's sequence. -/
theorem claim3_remove_first_match (fuel : Nat) (n : String) (f : FnId)
    (st : EmitterState) (res : Except Crash (EmitterState × List Ev)) (i : Nat)
    (hn : n ≠ "removeListener")
    (hidx : findFirstIdx f (regsOf n st) = some i)
    (h : removeListenerF (fuel + 1) n f st = some res) :
    regsOf n (lout res).1 = (regsOf n st).eraseIdx i ∧
    (∃ r, (regsOf n st).get? i = some r ∧ r.fnOf = f) ∧
    (∀ j r', j < i → (regsOf n st).get? j = some r' → r'.fnOf ≠ f) ∧
    (∀ m, m ≠ n → m ≠ "removeListener" → regsOf m (lout res).1 = regsOf m st) := by
  obtain ⟨r, innerRes, hget, hf, heqE, hlout, _, _⟩ :=
    removeListenerF_match fuel n f st res i hidx h
  obtain ⟨e1, _, _, _⟩ := (dispatchInvariants fuel).1 _ _ _ _ heqE
  have hsome : (lookupE n st.events).isSome := by
    apply @regsOf_ne_nil_isSome n st
    intro hnil
    rw [hnil] at hget
    simp at hget
  have hstate : (lout res).1 = (eout innerRes).1 := by rw [hlout]
  refine ⟨?_, ⟨r, hget, hf⟩, (findFirstIdx_spec f (regsOf n st) i hidx).2, ?_⟩
  · rw [hstate, e1 n hn hn]
    have hx := lookupE_updE_self n ((regsOf n st).eraseIdx i) st.events hsome
    simp only [regsOf, updList] at hx ⊢
    simp [hx]
  · intro m hm1 hm2
    rw [hstate, e1 m hm2 hm2]
    have hx := lookupE_updE_ne n m ((regsOf n st).eraseIdx i) hm1 st.events
    simp only [regsOf, updList] at hx ⊢
    simp [hx]

/-- Witness for the amended C3 on the spec's own example sequence. -/
theorem claim3_witness :
    ("t" : String) ≠ "removeListener" ∧
    findFirstIdx 0 (regsOf "t" stW3) = some 0 ∧
    removeListenerF 9 "t" 0 stW3
      = some (Except.ok (stW3r, [Ev.removed "t" (Reg.plain 0)])) ∧
    regsOf "t" (lout (Except.ok (stW3r, [Ev.removed "t" (Reg.plain 0)]))).1
      = (regsOf "t" stW3).eraseIdx 0 :=
  ⟨by decide, by decide, by decide,
    (claim3_remove_first_match 8 "t" 0 stW3
      (Except.ok (stW3r, [Ev.removed "t" (Reg.plain 0)])) 0
      (by decide) (by decide) (by decide)).1⟩

def stW4 : EmitterState := ⟨[("t", [Reg.once 5]), ("removeListener", [Reg.plain 9])], 2, none⟩

def stW4r : EmitterState := ⟨[("t", []), ("removeListener", [Reg.plain 9])], 1, none⟩

/-- C4 counterexample: removing a once-wrapped registration emits
`removeListener` whose payload is the removed element itself — the
`Listener` wrapper object — not the original callback as the claim
states (`_removeListener` passes the spliced-out element). -/
theorem claim4_counterexample :
    removeListenerF 9 "t" 5 stW4 =
      some (Except.ok (stW4r, [Ev.removed "t" (Reg.once 5),
        Ev.invoke "removeListener" (Reg.plain 9) [Val.str "t", Val.wrapper 5]])) ∧
    (Val.wrapper 5 : Val) ≠ Val.fn 5 := by
  refine ⟨by decide, by decide⟩

/-- C4 (amended): every removal performed by `removeListener`/`off` fires a
`removeListener` notification carrying `(name, removedRegistration)` where
the payload is the stored registration itself — the original callback for a
bare registration but the `Listener` wrapper for a once registration — and
the notification fires only when a match was found; removing from an event
with no listeners or with no matching listener is a silent no-op that still
returns self.  (Splices during `emit` go through the same `_removeListener`
helper, embedded as `removeAtF`, and carry the same wrapper payload; the
`lout` projection reads the outcome whether the notification's own dispatch
returns or throws.) -/
theorem claim4_removal_notification (fuel : Nat) (n : String) (f : FnId)
    (st : EmitterState) (res : Except Crash (EmitterState × List Ev))
    (h : removeListenerF (fuel + 1) n f st = some res) :
    ((∀ r ∈ regsOf n st, Reg.fnOf r ≠ f) → res = Except.ok (st, ([] : List Ev))) ∧
    (∀ i, findFirstIdx f (regsOf n st) = some i →
      ∃ r innerRes, (regsOf n st).get? i = some r ∧
        emitF fuel "removeListener" [Val.str n, regVal r]
          { updList n ((regsOf n st).eraseIdx i) st with
            eventsCount := st.eventsCount - 1 }
          = some innerRes ∧
        lout res = ((eout innerRes).1, Ev.removed n r :: (eout innerRes).2)) := by
  constructor
  · exact fun hno => removeListenerF_noop (fuel + 1) n f st res h hno
  · intro i hidx
    obtain ⟨r, innerRes, hget, hf, heqE, hlout, _, _⟩ :=
      removeListenerF_match fuel n f st res i hidx h
    exact ⟨r, innerRes, hget, heqE, hlout⟩

/-- Witness for the amended C4 on a registry holding a once registration
and a `removeListener` handler: the notification payload is the wrapper. -/
theorem claim4_witness :
    removeListenerF 9 "t" 5 stW4 =
      some (Except.ok (stW4r, [Ev.removed "t" (Reg.once 5),
        Ev.invoke "removeListener" (Reg.plain 9) [Val.str "t", Val.wrapper 5]])) ∧
    ((∀ r ∈ regsOf "t" stW4, Reg.fnOf r ≠ 5) →
       (Except.ok (stW4r, [Ev.removed "t" (Reg.once 5),
          Ev.invoke "removeListener" (Reg.plain 9) [Val.str "t", Val.wrapper 5]])
         : Except Crash (EmitterState × List Ev)) = Except.ok (stW4, ([] : List Ev))) ∧
    (∀ i, findFirstIdx 5 (regsOf "t" stW4) = some i →
      ∃ r innerRes, (regsOf "t" stW4).get? i = some r ∧
        emitF 8 "removeListener" [Val.str "t", regVal r]
          { updList "t" ((regsOf "t" stW4).eraseIdx i) stW4 with
            eventsCount := stW4.eventsCount - 1 }
          = some innerRes ∧
        lout (Except.ok (stW4r, [Ev.removed "t" (Reg.once 5),
          Ev.invoke "removeListener" (Reg.plain 9) [Val.str "t", Val.wrapper 5]])
          : Except Crash (EmitterState × List Ev))
          = ((eout innerRes).1, Ev.removed "t" r :: (eout innerRes).2)) :=
  ⟨by decide,
    (claim4_removal_notification 8 "t" 5 stW4 _ (by decide)).1,
    (claim4_removal_notification 8 "t" 5 stW4 _ (by decide)).2⟩

/-- C5: every add-style operation (`on`/`addListener`, `once`,
`prependListener`, `prependOnceListener` — all running through `_on`)
dispatches `newListener` carrying `(name, originalListener)` first, on the
pre-mutation state (also on the very first registration for the name);
during that dispatch no sequence ever grows, so a handler inspecting the
registry cannot see the not-yet-added entry; only afterwards is the new
registration prepended or appended (a throw inside the dispatch propagates
before any mutation — the completing adds are exactly those whose
`newListener` dispatch returns). -/
theorem claim5_newListener_first (fuel : Nat) (dflt : JNum) (n : String) (f : FnId)
    (p o : Bool) (st st2 : EmitterState) (tr : List Ev)
    (h : onAux fuel dflt n f p o st = some (Except.ok (st2, tr))) :
    ∃ b st1 tr1 w,
      emitF fuel "newListener" [Val.str n, Val.fn f] st
        = some (Except.ok (b, st1, tr1)) ∧
      tr = tr1 ++ w ∧ (w = [] ∨ w = [Ev.warn]) ∧
      (∀ m, (regsOf m st1).Sublist (regsOf m st)) ∧
      regsOf n st2 =
        (if p then (if o then Reg.once f else Reg.plain f) :: regsOf n st1
         else regsOf n st1 ++ [if o then Reg.once f else Reg.plain f]) := by
  obtain ⟨b, st1, tr1, heq, htr, hst⟩ := onAux_spec fuel dflt n f p o st st2 tr h
  obtain ⟨_, e2, _, _⟩ := (dispatchInvariants fuel).1 _ _ _ _ heq
  refine ⟨b, st1, tr1, _, heq, htr, ?_, by simpa [eout] using e2, ?_⟩
  · split
    · exact Or.inr rfl
    · exact Or.inl rfl
  · rw [hst]
    have hx := lookupE_insertE_self n
      (if p then (if o then Reg.once f else Reg.plain f) :: regsOf n st1
       else regsOf n st1 ++ [if o then Reg.once f else Reg.plain f]) st1.events
    simp only [regsOf] at hx ⊢
    rw [hx]
    rfl

def stW5 : EmitterState := ⟨[("newListener", [Reg.plain 3])], 1, none⟩

/-- Witness for C5: a registry holding a `newListener` handler; adding a
listener for `"t"` dispatches the handler with `("t", listener)` before the
append. -/
theorem claim5_witness :
    onAux 5 (JNum.fin 10) "t" 7 false false stW5 =
      some (Except.ok
        ((⟨[("newListener", [Reg.plain 3]), ("t", [Reg.plain 7])], 2, none⟩
           : EmitterState),
         [Ev.invoke "newListener" (Reg.plain 3) [Val.str "t", Val.fn 7]])) ∧
    (∃ b st1 tr1 w,
      emitF 5 "newListener" [Val.str "t", Val.fn 7] stW5
        = some (Except.ok (b, st1, tr1)) ∧
      [Ev.invoke "newListener" (Reg.plain 3) [Val.str "t", Val.fn 7]] = tr1 ++ w ∧
      (w = [] ∨ w = [Ev.warn]) ∧
      (∀ m, (regsOf m st1).Sublist (regsOf m stW5)) ∧
      regsOf "t" ⟨[("newListener", [Reg.plain 3]), ("t", [Reg.plain 7])], 2, none⟩ =
        (if false then (if false then Reg.once 7 else Reg.plain 7) :: regsOf "t" st1
         else regsOf "t" st1 ++ [if false then Reg.once 7 else Reg.plain 7])) :=
  ⟨by decide,
    claim5_newListener_first 5 (JNum.fin 10) "t" 7 false false stW5
      ⟨[("newListener", [Reg.plain 3]), ("t", [Reg.plain 7])], 2, none⟩
      [Ev.invoke "newListener" (Reg.plain 3) [Val.str "t", Val.fn 7]] (by decide)⟩

def stW6 : EmitterState := ⟨[("a", [Reg.plain 0])], 1, some (JNum.fin 1)⟩

/-- C6 counterexample: the claim says a warning fires exactly when the
post-append count FOR THAT NAME exceeds the ceiling.  With a per-instance
ceiling of 1 and one listener already registered for `"a"`, adding the first
listener for `"b"` warns (the code compares the instance-wide `eventsCount`)
although `"b"`'s post-append count is 1, which does not exceed 1. -/
theorem claim6_counterexample :
    stW6.maxListeners = some (JNum.fin 1) ∧
    (onF 9 (JNum.fin 10) "b" 1 stW6).map
      (fun q => ((lout q).2.count Ev.warn, (regsOf "b" (lout q).1).length))
      = some (1, 1) ∧
    ¬ ((1 : Nat) > 1) := by
  refine ⟨rfl, by decide, by decide⟩

/-- C6 (amended): a completing add emits the diagnostic warning exactly when
the effective ceiling (per-instance override if set, else the global
default) is neither `0` nor `Infinity` and the post-add value of the
INSTANCE-WIDE `eventsCount` counter — not the per-name count — exceeds that
ceiling; at most one warning per add and no failure.  (`setMaxListeners(1)`
followed by two `on('x', fn)` calls still produces exactly one warning,
after the second add, because with a single event name the instance-wide
counter and the per-name count coincide.) -/
theorem claim6_warning (fuel : Nat) (dflt : JNum) (n : String) (f : FnId)
    (p o : Bool) (st st1 st2 : EmitterState) (tr tr1 : List Ev) (b : Bool)
    (h : onAux fuel dflt n f p o st = some (Except.ok (st2, tr)))
    (h1 : emitF fuel "newListener" [Val.str n, Val.fn f] st
      = some (Except.ok (b, st1, tr1))) :
    tr.count Ev.warn =
      (if (st1.maxListeners.getD dflt != JNum.fin 0) &&
          ((st1.maxListeners.getD dflt) != JNum.inf) &&
          gtJ (st1.eventsCount + 1) (st1.maxListeners.getD dflt) then 1 else 0) := by
  obtain ⟨b', st1', tr1', heq, htr, hst⟩ := onAux_spec fuel dflt n f p o st st2 tr h
  rw [h1] at heq
  obtain ⟨rfl, rfl, rfl⟩ : b = b' ∧ st1 = st1' ∧ tr1 = tr1' := by simpa using heq
  rw [htr, List.count_append]
  have h0 : tr1.count Ev.warn = 0 := by
    rw [List.count_eq_zero]
    intro hmem
    obtain ⟨_, _, _, e4⟩ := (dispatchInvariants fuel).1 _ _ _ _ h1
    rcases e4 _ (by simpa [eout] using hmem) with hx | hx <;> simp [Ev.tag] at hx
  rw [h0]
  split <;> simp

def stW6r : EmitterState :=
  ⟨[("a", [Reg.plain 0]), ("b", [Reg.plain 1])], 2, some (JNum.fin 1)⟩

/-- Witness for the amended C6 on the counterexample scenario: one warning,
driven by the instance-wide counter. -/
theorem claim6_witness :
    onAux 9 (JNum.fin 10) "b" 1 false false stW6
      = some (Except.ok (stW6r, [Ev.warn])) ∧
    emitF 9 "newListener" [Val.str "b", Val.fn 1] stW6
      = some (Except.ok (false, stW6, ([] : List Ev))) ∧
    ([Ev.warn] : List Ev).count Ev.warn =
      (if (stW6.maxListeners.getD (JNum.fin 10) != JNum.fin 0) &&
          ((stW6.maxListeners.getD (JNum.fin 10)) != JNum.inf) &&
          gtJ (stW6.eventsCount + 1) (stW6.maxListeners.getD (JNum.fin 10))
        then 1 else 0) :=
  ⟨by decide, by decide,
    claim6_warning 9 (JNum.fin 10) "b" 1 false false stW6 stW6 stW6r [Ev.warn] [] false
      (by decide) (by decide)⟩

def stC2a : EmitterState := ⟨[("t", [Reg.once 4])], 1, none⟩

def stC2b : EmitterState := ⟨[("t", [])], 0, none⟩

/-- C2 counterexample: the claim says a non-empty sequence means every
listener registered at call time is invoked once and `emit` returns true.
With a single once registration, the walk splices the wrapper out, fires
the removal notification, and then throws at `listener.apply(this, values)`
— the stored `Listener` wrapper defines only `call`, does not extend
`Function`, and has no `apply` — so nothing is ever invoked and `emit`
never returns. -/
theorem claim2_counterexample :
    regsOf "t" stC2a = [Reg.once 4] ∧
    emitF 6 "t" [Val.str "x"] stC2a
      = some (Except.error (stC2b, [Ev.removed "t" (Reg.once 4)])) ∧
    invokesOf "t" [Ev.removed "t" (Reg.once 4)] = [] := by
  refine ⟨by decide, by decide, by decide⟩

/-- C2 (amended): `emit(name, ...args)` returns false — with no state
change and no steps — exactly when the sequence for the name is absent or
empty at call time.  When every registration for the name is a bare
callback, each is invoked exactly once, in sequence order, with args, and
`emit` returns true with the registry unchanged.  But as soon as the walk
reaches a once registration (first non-plain position), that wrapper is
spliced out and the `removeListener` notification dispatched, and then
`emit` throws a `TypeError` at `listener.apply` (the `Listener` wrapper has
no `apply` method): the wrapped callback is never invoked, later entries
are never visited, and — for an unreserved name — exactly the plain prefix
was invoked with args. -/
theorem claim2_emit_contract (fuel : Nat) (n : String) (vs : List Val)
    (st : EmitterState) (res : Except Crash (Bool × EmitterState × List Ev))
    (h : emitF fuel n vs st = some res) :
    (res = Except.ok (false, st, ([] : List Ev)) ↔ regsOf n st = []) ∧
    (regsOf n st ≠ [] → (regsOf n st).all Reg.isPlain = true →
      res = Except.ok (true, st, (regsOf n st).map (fun r => Ev.invoke n r vs)) ∧
      invokesOf n (eout res).2 = (regsOf n st).map (fun r => (r, vs))) ∧
    (∀ P g S, regsOf n st = P ++ Reg.once g :: S → P.all Reg.isPlain = true →
      ∃ st2 trI,
        res = Except.error (st2,
          (P.map fun r => Ev.invoke n r vs) ++ Ev.removed n (Reg.once g) :: trI) ∧
        (n ≠ "removeListener" →
          invokesOf n (eout res).2 = P.map (fun r => (r, vs)))) := by
  obtain ⟨hemp, hplain, hwrap⟩ := emitF_spec fuel n vs st res h
  refine ⟨?_, ?_, ?_⟩
  · constructor
    · intro hres
      by_contra hne
      rcases split_plain (regsOf n st) with hall | ⟨P, g, S, hsplit, hP⟩
      · have hres2 := hplain hne hall
        rw [hres] at hres2
        simp at hres2
      · obtain ⟨fuel2, innerRes, _, hres2⟩ := hwrap P g S hsplit hP
        rw [hres] at hres2
        simp at hres2
    · intro hc
      exact hemp hc
  · intro hne hall
    have hres := hplain hne hall
    refine ⟨hres, ?_⟩
    rw [hres]
    simpa [eout] using invokesOf_map_invoke n vs (regsOf n st)
  · intro P g S hsplit hP
    obtain ⟨fuel2, innerRes, hinner, hres⟩ := hwrap P g S hsplit hP
    refine ⟨(eout innerRes).1, (eout innerRes).2, hres, ?_⟩
    intro hn
    obtain ⟨_, _, _, e4⟩ := (dispatchInvariants fuel2).1 _ _ _ _ hinner
    rw [hres]
    have hred : eout (Except.error ((eout innerRes).1,
          (P.map fun r => Ev.invoke n r vs)
            ++ Ev.removed n (Reg.once g) :: (eout innerRes).2)
          : Except Crash (Bool × EmitterState × List Ev))
        = ((eout innerRes).1,
          (P.map fun r => Ev.invoke n r vs)
            ++ Ev.removed n (Reg.once g) :: (eout innerRes).2) := rfl
    rw [hred, invokesOf_append, invokesOf_cons_removed, invokesOf_map_invoke,
        invokesOf_foreign (fun e he => (e4 e he).elim id id) hn]
    simp

def stW2b : EmitterState := ⟨[("t", [Reg.plain 0, Reg.once 1])], 2, none⟩

def resW2 : Except Crash (Bool × EmitterState × List Ev) :=
  Except.error ((⟨[("t", [Reg.plain 0])], 1, none⟩ : EmitterState),
    [Ev.invoke "t" (Reg.plain 0) [Val.str "x"], Ev.removed "t" (Reg.once 1)])

/-- Witness for the amended C2 on a mixed plain/once sequence: the plain
head is invoked, then the walk splices the wrapper and throws. -/
theorem claim2_witness :
    (regsOf "t" stW2b = [Reg.plain 0] ++ Reg.once 1 :: [] ∧
     ([Reg.plain 0] : List Reg).all Reg.isPlain = true ∧
     emitF 9 "t" [Val.str "x"] stW2b = some resW2) ∧
    (∃ st2 trI,
       resW2 = Except.error (st2,
         (([Reg.plain 0] : List Reg).map fun r => Ev.invoke "t" r [Val.str "x"])
           ++ Ev.removed "t" (Reg.once 1) :: trI) ∧
       (("t" : String) ≠ "removeListener" →
         invokesOf "t" (eout resW2).2
           = ([Reg.plain 0] : List Reg).map (fun r => (r, [Val.str "x"])))) :=
  ⟨⟨by decide, by decide, by decide⟩,
    (claim2_emit_contract 9 "t" [Val.str "x"] stW2b resW2 (by decide)).2.2
      [Reg.plain 0] 1 [] (by decide) (by decide)⟩

def stC1e : EmitterState := ⟨[], 0, none⟩

def stC1a : EmitterState := ⟨[("t", [Reg.once 7])], 1, none⟩

def stC1b : EmitterState := ⟨[("t", [])], 0, none⟩

/-- C1 (code bug): `once(name, f)` does register a `Listener` wrapper, but
emitting the name never invokes `f`.  The walk splices the wrapper out and
fires the removal notification, then evaluates `listener.apply(this,
values)` on the wrapper — the final `Listener` class defines only `call`,
does not extend `Function`, and so has no `apply` — and `emit` throws a
`TypeError`.  The sequence is emptied by the splice, but the trace holds
only the removal notification and no invocation of `f`, contradicting the
claimed invoke-exactly-once-then-deregister lifecycle. -/
theorem claim1_once_apply_crash :
    onceF 6 (JNum.fin 10) "t" 7 stC1e = some (Except.ok (stC1a, ([] : List Ev))) ∧
    regsOf "t" stC1a = [Reg.once 7] ∧
    emitF 6 "t" [Val.str "x"] stC1a
      = some (Except.error (stC1b, [Ev.removed "t" (Reg.once 7)])) ∧
    invokesOf "t" [Ev.removed "t" (Reg.once 7)] = [] ∧
    regsOf "t" stC1b = [] := by
  refine ⟨by decide, by decide, by decide, by decide, by decide⟩

def stC10z : EmitterState := ⟨[], 0, none⟩

def stC10s : EmitterState :=
  ⟨[("data", [Reg.once 0]), ("error", [Reg.plain 1])], 2, none⟩

def stC10c : EmitterState :=
  ⟨[("data", []), ("error", [Reg.plain 1])], 1, none⟩

/-- C10 (code bug): the promise-returning `once(emitter, name)` helper
registers its resolver via `emitter.once(name, …)` and `reject` via
`on('error', reject)`.  The claimed success path can never happen: emitting
the name splices the once wrapper and fires the removal notification, then
throws a `TypeError` at `listener.apply` (the `Listener` class has no
`apply`), so the resolver never runs, `off('error', reject)` never
executes, the promise never settles, and the error listener stays
registered.  Only the error path behaves: emitting `'error'` invokes
`reject` while the pending once registration stays in place. -/
theorem claim10_helper_crash :
    onceHelperSetup 6 (JNum.fin 10) "data" 0 1 stC10z
      = some (Except.ok (stC10s, ([] : List Ev))) ∧
    emitF 6 "data" [Val.str "v"] stC10s
      = some (Except.error (stC10c, [Ev.removed "data" (Reg.once 0)])) ∧
    invokesOf "data" [Ev.removed "data" (Reg.once 0)] = [] ∧
    regsOf "error" stC10c = [Reg.plain 1] ∧
    emitF 6 "error" [Val.str "e"] stC10s
      = some (Except.ok (true, stC10s, [Ev.invoke "error" (Reg.plain 1) [Val.str "e"]])) ∧
    regsOf "data" stC10s = [Reg.once 0] := by
  refine ⟨by decide, by decide, by decide, by decide, by decide, by decide⟩
